import Mathlib

/-!
Verification development for the ProtSeqExplorer sequence-embedding core.

The first part embeds `src/ANV.py` (class `AANaturalVector`): sequences are
`List Char`, numpy float arrays become `ℚ`-valued functions (all arithmetic in
that file is exact rational arithmetic on counts), and the numpy slice
assignments of `_compute_cumulative_counts_numba` become explicit
interval-overwrite operations on a row function.

The second part embeds `src/EEV.py` (class `EnergyEntropy_1`): entropy values
live in `ℝ` (`math.log2` becomes `Real.logb 2`), integer counts stay in `ℕ`,
and Python `int` configuration parameters are `ℤ`.  Python dictionaries keyed
by letters become functions `Char → _`; the one dictionary access that can
raise (`H_second[b]` for a letter `b` outside the alphabet) is modelled by an
explicit error branch of the encode function.
-/

/-! ### ANV.py : data and helpers -/

/-- Embedding of `aa_list` from `AANaturalVector._create_aa_mapping`. -/
def aaList : List Char :=
  ['A','R','N','D','C','Q','E','G','H','I','L','K','M','F','P','S','T','W','Y','V']

/-- Embedding of the `aa_mapping` array: character to amino-acid index, `-1`
for characters that are not amino acids. -/
def aaMapping (c : Char) : ℤ :=
  if c ∈ aaList then (aaList.indexOf c : ℤ) else -1

/-- Embedding of the invalid-character test in `AANaturalVector.seq2vector`:
`ord(char) >= 128 or self.aa_mapping[ord(char)] == -1`. -/
def anvInvalidChar (c : Char) : Bool :=
  (128 ≤ c.toNat) || (aaMapping c == -1)

/-- Error outcomes of `AANaturalVector.seq2vector` (the `ValueError`s it
raises; the invalid-character error carries the *set* of offending
characters, as `list(set(invalid_chars))` does). -/
inductive AnvErr where
  | emptySeq : AnvErr
  | invalidChars : Finset Char → AnvErr

/-- Positions (0-based) at which the amino acid of index `i` occurs; this is
`t[i, :n[i]] - 1` as produced by `_count_amino_acids_numba`. -/
def occPositions (seq : List Char) (i : ℕ) : List ℕ :=
  (seq.enum.filter (fun pc => aaMapping pc.2 == (i : ℤ))).map Prod.fst

/-- Occurrence count `n[i]` from `_count_amino_acids_numba`. -/
def anvCount (seq : List Char) (i : ℕ) : ℕ :=
  (occPositions seq i).length

/-- Numpy slice assignment `row[lo:hi] = v` on a row modelled as a function. -/
def sliceSet (f : ℕ → ℚ) (lo hi : ℕ) (v : ℚ) : ℕ → ℚ :=
  fun p => if lo ≤ p ∧ p < hi then v else f p

/-- Slice writes performed by the loop
`for j in range(1, n): miu[i, positions[j-1]:positions[j]] = j`
of `_compute_cumulative_counts_numba`: each element is
`(value, start, stop)`. -/
def innerSlices : ℕ → List ℕ → List (ℕ × ℕ × ℕ)
  | _, [] => []
  | _, [_] => []
  | j, a :: b :: t => (j, a, b) :: innerSlices (j + 1) (b :: t)

/-- Last element of a list of positions (`positions[-1]`), with default `0`
for the empty list (never used on an empty list). -/
def lastD : List ℕ → ℕ
  | [] => 0
  | [a] => a
  | _ :: b :: t => lastD (b :: t)

/-- Row `i` of `miu` as produced by `_count_amino_acids_numba`:
indicator of the occurrence positions (`miu[char_code, i] = 1`). -/
def miuInit (occ : List ℕ) : ℕ → ℚ :=
  fun p => if p ∈ occ then 1 else 0

/-- Row `i` of `miu` after `_compute_cumulative_counts_numba`: the initial
indicator row overwritten by the slice assignments
`miu[i, :positions[0]] = 0` (only when `positions[0] > 0`), the inner loop,
and `miu[i, positions[-1]:] = n[i]`.  Rows with `n[i] = 0` are left as
the (all-zero) initial row. -/
def miuRow (occ : List ℕ) (N : ℕ) : ℕ → ℚ :=
  match occ with
  | [] => miuInit []
  | p0 :: rest =>
    let f0 := if 0 < p0 then sliceSet (miuInit (p0 :: rest)) 0 p0 0 else miuInit (p0 :: rest)
    let f1 := (innerSlices 1 (p0 :: rest)).foldl
      (fun f x => sliceSet f x.2.1 x.2.2 (x.1 : ℚ)) f0
    sliceSet f1 (lastD (p0 :: rest)) N ((p0 :: rest).length : ℚ)

/-- Cumulative rank profile of symbol index `i` for `seq` (row `i` of `miu`
after step 2 of `seq2vector`). -/
def anvMiu (seq : List Char) (i : ℕ) : ℕ → ℚ :=
  miuRow (occPositions seq i) seq.length

/-- Value `theta[i] = np.sum(miu[i]) / seq_len` from
`_compute_statistics_numba`. -/
def anvTheta (seq : List Char) (i : ℕ) : ℚ :=
  ((List.range seq.length).map (anvMiu seq i)).sum / (seq.length : ℚ)

/-- Value `sigma[i] = np.sum(miu[i])` from `_compute_statistics_numba`. -/
def anvSigma (seq : List Char) (i : ℕ) : ℚ :=
  ((List.range seq.length).map (anvMiu seq i)).sum

/-- Value `D[i]` from `_compute_statistics_numba`: guarded by `n[i] > 0`,
otherwise left `0`. -/
def anvD (seq : List Char) (i : ℕ) : ℚ :=
  if 0 < anvCount seq i then
    ((List.range seq.length).map
      (fun p => (anvMiu seq i p - anvTheta seq i) * (anvMiu seq i p - anvTheta seq i))).sum
      / ((anvCount seq i : ℚ) * (anvCount seq i : ℚ))
  else 0

/-- Value `kesai[i]` from `_compute_statistics_numba`: guarded by `n[i] > 0`,
otherwise left `0`. -/
def anvKesai (seq : List Char) (i : ℕ) : ℚ :=
  if 0 < anvCount seq i then anvSigma seq i / (anvCount seq i : ℚ) else 0

/-- Entry `cov[i, j]` from `_compute_covariance_numba`: computed only for
`i` with `n[i] > 0`, `j in range(i)` with `n[j] > 0`; every other entry of
the `np.zeros((20, 20))` matrix stays `0`. -/
def anvCov (seq : List Char) (i j : ℕ) : ℚ :=
  if 0 < anvCount seq i ∧ j < i ∧ 0 < anvCount seq j then
    ((List.range seq.length).map
      (fun p => (anvMiu seq i p - anvTheta seq i) * (anvMiu seq j p - anvTheta seq j))).sum
      / ((anvCount seq i : ℚ) * (anvCount seq j : ℚ))
  else 0

/-- Index pairs `(i, j)` visited by the covariance-section loop of
`_build_feature_vector_numba` (`for i in range(20): for j in range(i)`),
in visit order. -/
def covPairs : List (ℕ × ℕ) :=
  ((List.range 20).map (fun i => (List.range i).map (fun j => (i, j)))).flatten

/-- The 250-entry feature row assembled by `_build_feature_vector_numba`:
counts, `kesai`, `D`, then the lower-triangle covariance entries. -/
def anvVector (seq : List Char) : List ℚ :=
  ((List.range 20).map (fun i => (anvCount seq i : ℚ)))
    ++ ((List.range 20).map (fun i => anvKesai seq i))
    ++ ((List.range 20).map (fun i => anvD seq i))
    ++ (covPairs.map (fun pr => anvCov seq pr.1 pr.2))

/-- Test used by `feature1[~np.all(feature1 == 0, axis=1)]`. -/
def allZeroRow (row : List ℚ) : Bool :=
  row.all (fun x => x == 0)

/-- Embedding of `AANaturalVector.seq2vector`: validation (empty sequence,
invalid characters) followed by the numeric pipeline; the result is the
list of rows of the returned array (all-zero rows removed). -/
def anvSeq2vector (seq : List Char) : Except AnvErr (List (List ℚ)) :=
  if seq.length = 0 then .error .emptySeq
  else if (seq.filter (fun c => anvInvalidChar c)) ≠ [] then
    .error (.invalidChars (seq.filter (fun c => anvInvalidChar c)).toFinset)
  else .ok (([anvVector seq]).filter (fun row => !(allZeroRow row)))

/-! ### EEV.py : data and helpers -/

/-- Failure of `EnergyEntropy_1.__init__`: the `TypeError` that
`itertools.combinations(None, k)` raises when the alphabet lookup returned
`None` and a combination list is built. -/
inductive EevInitErr where
  | typeErr : EevInitErr

/-- Failures of `EnergyEntropy_1.seq2vector`: the explicit `ValueError` for
short sequences; the `TypeError` from iterating a `None` alphabet; the
`KeyError` from `H_second[b]` when a pair's second letter is not an
alphabet key. -/
inductive EevErr where
  | valueErr : EevErr
  | typeErr : EevErr
  | keyErr : EevErr

/-- State of a constructed `EnergyEntropy_1` object. -/
structure EnergyEntropy where
  data_type : String
  energy_values : ℤ
  mutual_information_energy : ℤ
  alphabet : Option (List Char)
  combinations_by_k : List (ℕ × List (List Char))
  mi_combinations : List (List Char)
  mi_combinations_set : List (List Char)

/-- Embedding of Python `str.lower()` (character-wise lowercasing; the
alphabet names involved are ASCII). -/
def pyLower (s : String) : String :=
  ⟨s.data.map Char.toLower⟩

/-- Embedding of `EnergyEntropy_1._get_data_type`:
`data_type_dict.get(data_type.lower())`. -/
def getDataType (dt : String) : Option (List Char) :=
  if pyLower dt = "dna" then some ['A','C','G','T']
  else if pyLower dt = "protein" then
    some ['A','C','D','E','F','G','H','I','K','L','M','N','P','Q','R','S','T','V','W','Y']
  else if pyLower dt = "rna" then some ['A','C','G','U']
  else none

/-- Embedding of `itertools.combinations(l, k)`: all `k`-element subsequences
of `l`, in the order `itertools` produces them. -/
def combos : ℕ → List Char → List (List Char)
  | 0, _ => [[]]
  | _ + 1, [] => []
  | k + 1, c :: cs => ((combos k cs).map (fun t => c :: t)) ++ combos (k + 1) cs

/-- Embedding of Python `sorted` on a string of characters (code-point
order). -/
def sortChars (l : List Char) : List Char :=
  l.insertionSort (fun a b => a ≤ b)

/-- Embedding of `EnergyEntropy_1.__init__`.  No configuration validation is
performed; the only possible failure is the `TypeError` raised by
`itertools.combinations(None, _)` when the alphabet name is unknown and a
combination list has to be built (`energy_values > 1` or
`mutual_information_energy >= 1`). -/
def mkEnergyEntropy (dt : String) (ev mi : ℤ) : Except EevInitErr EnergyEntropy :=
  match getDataType dt with
  | none =>
    if 1 < ev ∨ 1 ≤ mi then .error .typeErr
    else .ok ⟨dt, ev, mi, none, [], [], []⟩
  | some a =>
    let cbk := if 1 < ev then
      (List.range' 1 (ev - 1).toNat).map (fun k => (k, combos k a)) else []
    let mic := if 1 ≤ mi then combos mi.toNat a else []
    let mset := if 1 ≤ mi then mic.map sortChars else []
    .ok ⟨dt, ev, mi, some a, cbk, mic, mset⟩

/-- Adjacent pairs `seq[i:i+2]` for `i in range(seq_len - 1)`
(`pair_counts` counts exactly these). -/
def dimerList (seq : List Char) : List (Char × Char) :=
  seq.zip seq.tail

/-- Count dictionary `number_X` (also `letter_counts` for letters of the
alphabet): occurrences of a letter in the sequence. -/
def numberX (seq : List Char) (c : Char) : ℕ :=
  seq.count c

/-- Marginal probability dictionary `p_X`. -/
noncomputable def pX (seq : List Char) (c : Char) : ℝ :=
  (numberX seq c : ℝ) / (seq.length : ℝ)

/-- Entropy dictionary `H_X`: `-v * log2 v if v > 0 else 0.0`. -/
noncomputable def hX (seq : List Char) (c : Char) : ℝ :=
  if 0 < pX seq c then -(pX seq c) * Real.logb 2 (pX seq c) else 0

/-- Dictionary `position_sum`: sum of the 1-based positions at which a
letter occurs (`for i, ch in enumerate(seq, start=1)`). -/
def positionSum (seq : List Char) (c : Char) : ℕ :=
  ((seq.enum.filter (fun pc => pc.2 == c)).map (fun pc => pc.1 + 1)).sum

/-- Value `all_position = seq_len * (seq_len + 1) * 0.5`. -/
noncomputable def allPosition (seq : List Char) : ℝ :=
  (seq.length : ℝ) * ((seq.length : ℝ) + 1) / 2

/-- Dictionary `H_rel` of relative-position entropies. -/
noncomputable def hRel (seq : List Char) (c : Char) : ℝ :=
  if 0 < (allPosition seq - (positionSum seq c : ℝ)) / allPosition seq then
    -((allPosition seq - (positionSum seq c : ℝ)) / allPosition seq)
      * Real.logb 2 ((allPosition seq - (positionSum seq c : ℝ)) / allPosition seq)
  else 0

/-- Distinct elements of a list keeping first occurrences: the key sequence
of a Python `Counter` built by repeated increments. -/
def firstDedup {α : Type} [DecidableEq α] : List α → List α
  | [] => []
  | a :: as => a :: firstDedup (as.filter (fun x => x ≠ a))
termination_by l => l.length
decreasing_by
  exact Nat.lt_succ_of_le (as.length_filter_le _)

/-- Contribution `-prob * log2(prob + 1e-10)` of one observed pair, where
`prob = cnt / total_pairs` with `cnt` the pair count and
`total_pairs = seq_len - 1`. -/
noncomputable def hSecondTerm (seq : List Char) (d : Char × Char) : ℝ :=
  -(((dimerList seq).count d : ℝ) / ((seq.length - 1 : ℕ) : ℝ))
    * Real.logb 2 (((dimerList seq).count d : ℝ) / ((seq.length - 1 : ℕ) : ℝ)
        + 1 / 10 ^ 10)

/-- Dictionary `H_second` after the accumulation loop
`for pair, cnt in pair_counts.items(): ... H_second[b] += -prob * log2(prob + 1e-10)`,
guarded by `if total_pairs > 0`.  The iteration order over `Counter.items()`
is first-occurrence order of the pairs, and the loop skips a pair whose
count is zero (`if cnt == 0: continue`). -/
noncomputable def hSecond (seq : List Char) : Char → ℝ :=
  if 0 < seq.length - 1 then
    (firstDedup (dimerList seq)).foldl
      (fun m d =>
        if (dimerList seq).count d = 0 then m
        else fun c => if c = d.2 then m d.2 + hSecondTerm seq d else m c)
      (fun _ => 0)
  else fun _ => 0

/-- Dictionary access `self.combinations_by_k[k]`. -/
def combsFor (E : EnergyEntropy) (k : ℕ) : List (List Char) :=
  (E.combinations_by_k.lookup k).getD []

/-- Embedding of `EnergyEntropy_1._compute_kcomb_features`. -/
noncomputable def computeKcombFeatures (E : EnergyEntropy) (entropy : Char → ℝ)
    (cnts : Char → ℕ) (k : ℕ) : List ℝ :=
  (combsFor E k).map (fun comb =>
    ((comb.map entropy).sum) * (((comb.map cnts).sum : ℕ) : ℝ))

/-- The `E1` feature list of `seq2vector`. -/
noncomputable def eevE1 (E : EnergyEntropy) (seq : List Char) : List ℝ :=
  if 1 < E.energy_values then
    ((List.range' 1 (E.energy_values - 1).toNat).map
      (fun k => computeKcombFeatures E (hX seq) (numberX seq) k)).flatten
  else []

/-- The `E2` feature list of `seq2vector`. -/
noncomputable def eevE2 (E : EnergyEntropy) (seq : List Char) : List ℝ :=
  if 1 < E.energy_values then
    ((List.range' 1 (E.energy_values - 1).toNat).map
      (fun k => computeKcombFeatures E (hSecond seq) (numberX seq) k)).flatten
  else []

/-- The `E3` feature list of `seq2vector`. -/
noncomputable def eevE3 (E : EnergyEntropy) (seq : List Char) : List ℝ :=
  if 1 < E.energy_values then
    ((List.range' 1 (E.energy_values - 1).toNat).map
      (fun k => computeKcombFeatures E (hRel seq) (numberX seq) k)).flatten
  else []

/-- Sliding windows `seq[i:i+r]` for `i in range(seq_len - r + 1)`. -/
def windowList (r : ℕ) (seq : List Char) : List (List Char) :=
  (List.range (seq.length - r + 1)).map (fun i => (seq.drop i).take r)

/-- The windows actually scanned by the mutual-information loop, which runs
only under `r > 1 and r <= seq_len`. -/
def miWindows (E : EnergyEntropy) (seq : List Char) : List (List Char) :=
  if 1 < E.mutual_information_energy
      ∧ E.mutual_information_energy ≤ (seq.length : ℤ) then
    windowList E.mutual_information_energy.toNat seq
  else []

/-- Value of the counter `mi_counts` at a key: the number of scanned windows
whose sorted form is this key, counted only when that sorted form is in
`mi_combinations_set`. -/
def miCountsOf (E : EnergyEntropy) (seq : List Char) (key : List Char) : ℕ :=
  (miWindows E seq).countP
    (fun w => decide (sortChars w = key ∧ sortChars w ∈ E.mi_combinations_set))

/-- Product `p_comb` of the marginal probabilities of a combination's
letters. -/
noncomputable def pComb (seq : List Char) (comb : List Char) : ℝ :=
  (comb.map (fun c => pX seq c)).prod

/-- The `E4` feature list of `seq2vector`, produced only under
`if self.mi_combinations and seq_len >= r`. -/
noncomputable def eevE4 (E : EnergyEntropy) (seq : List Char) : List ℝ :=
  if E.mi_combinations ≠ [] ∧ E.mutual_information_energy ≤ (seq.length : ℤ) then
    E.mi_combinations.map (fun comb =>
      if 0 < miCountsOf E seq (sortChars comb) then
        Real.logb 2 (((miCountsOf E seq (sortChars comb) : ℝ) / (seq.length : ℝ))
            / pComb seq comb)
          * ((miCountsOf E seq (sortChars comb) : ℝ) / (seq.length : ℝ))
          * (miCountsOf E seq (sortChars comb) : ℝ)
      else 0)
  else []

/-- Embedding of `EnergyEntropy_1.seq2vector`.  The length check comes
first; iterating a `None` alphabet to build `position_sum` raises
`TypeError`; the `H_second` accumulation raises `KeyError` as soon as some
observed pair's second letter is not an alphabet key; otherwise the call
returns `E1 + E2 + E3 + E4`. -/
noncomputable def eevSeq2vector (E : EnergyEntropy) (seq : List Char) :
    Except EevErr (List ℝ) :=
  if seq.length < 2 then .error .valueErr
  else
    match E.alphabet with
    | none => .error .typeErr
    | some al =>
      if (dimerList seq).any (fun d => !(decide (d.2 ∈ al))) then .error .keyErr
      else .ok (eevE1 E seq ++ eevE2 E seq ++ eevE3 E seq ++ eevE4 E seq)

/-- Concrete constructed encoder: `EnergyEntropy_1("dna", 2, 2)`. -/
def e22 : EnergyEntropy :=
  ⟨"dna", 2, 2, some ['A','C','G','T'],
    [(1, [['A'],['C'],['G'],['T']])],
    [['A','C'],['A','G'],['A','T'],['C','G'],['C','T'],['G','T']],
    [['A','C'],['A','G'],['A','T'],['C','G'],['C','T'],['G','T']]⟩

/-- Concrete constructed encoder: `EnergyEntropy_1("dna", 1, 3)`. -/
def e13 : EnergyEntropy :=
  ⟨"dna", 1, 3, some ['A','C','G','T'], [],
    [['A','C','G'],['A','C','T'],['A','G','T'],['C','G','T']],
    [['A','C','G'],['A','C','T'],['A','G','T'],['C','G','T']]⟩

/-- Formula claimed by the specification for one `E4` entry (claim C2):
`count` is the number of the sliding windows of width `r` whose sorted
symbols equal the (already sorted) subset; when `count > 0` the entry is
`log2((count/N)/p_comb) * (count/N) * count` with `p_comb` the product of
the marginal probabilities of the subset members, and `0` otherwise. -/
noncomputable def specE4Entry (r : ℕ) (seq : List Char) (comb : List Char) : ℝ :=
  if 0 < (windowList r seq).countP (fun w => decide (sortChars w = comb)) then
    Real.logb 2
        ((((windowList r seq).countP (fun w => decide (sortChars w = comb)) : ℝ)
            / (seq.length : ℝ)) / pComb seq comb)
      * (((windowList r seq).countP (fun w => decide (sortChars w = comb)) : ℝ)
          / (seq.length : ℝ))
      * ((windowList r seq).countP (fun w => decide (sortChars w = comb)) : ℝ)
  else 0

/-! ### General lemmas about the embedded operations -/

theorem computeKcombFeatures_length (E : EnergyEntropy) (ent : Char → ℝ)
    (cnts : Char → ℕ) (k : ℕ) :
    (computeKcombFeatures E ent cnts k).length = (combsFor E k).length := by
  simp [computeKcombFeatures]

theorem eevE1_length (E : EnergyEntropy) (s : List Char) :
    (eevE1 E s).length =
      if 1 < E.energy_values then
        ((List.range' 1 (E.energy_values - 1).toNat).map
          (fun k => (combsFor E k).length)).sum
      else 0 := by
  unfold eevE1
  split <;>
    simp [List.length_flatten, List.map_map, Function.comp_def,
      computeKcombFeatures_length]

theorem eevE2_length (E : EnergyEntropy) (s : List Char) :
    (eevE2 E s).length =
      if 1 < E.energy_values then
        ((List.range' 1 (E.energy_values - 1).toNat).map
          (fun k => (combsFor E k).length)).sum
      else 0 := by
  unfold eevE2
  split <;>
    simp [List.length_flatten, List.map_map, Function.comp_def,
      computeKcombFeatures_length]

theorem eevE3_length (E : EnergyEntropy) (s : List Char) :
    (eevE3 E s).length =
      if 1 < E.energy_values then
        ((List.range' 1 (E.energy_values - 1).toNat).map
          (fun k => (combsFor E k).length)).sum
      else 0 := by
  unfold eevE3
  split <;>
    simp [List.length_flatten, List.map_map, Function.comp_def,
      computeKcombFeatures_length]

theorem eevE4_length (E : EnergyEntropy) (s : List Char) :
    (eevE4 E s).length =
      if E.mi_combinations ≠ [] ∧ E.mutual_information_energy ≤ (s.length : ℤ)
      then E.mi_combinations.length else 0 := by
  unfold eevE4
  split <;> simp

theorem eevSeq2vector_ok (E : EnergyEntropy) (seq : List Char) (v : List ℝ)
    (h : eevSeq2vector E seq = .ok v) :
    v = eevE1 E seq ++ eevE2 E seq ++ eevE3 E seq ++ eevE4 E seq := by
  unfold eevSeq2vector at h
  split at h
  · exact absurd h (by simp)
  · split at h
    · exact absurd h (by simp)
    · split at h
      · exact absurd h (by simp)
      · exact (Except.ok.injEq _ _ ▸ h).symm

/-! ### Claim C4 -/

/-- Claim C4 (corrected).  `EnergyEntropy_1.__init__` performs no
configuration validation and raises no `ConfigurationError`: construction
fails (with the `TypeError` from `itertools.combinations(None, _)`) exactly
when the alphabet name is unsupported and a combination list has to be
built (`energy_values > 1` or `mutual_information_energy ≥ 1`); every
other configuration — including `energy_values < 1`,
`mutual_information_energy < 1`, and `mutual_information_energy` larger
than the alphabet size — constructs successfully. -/
theorem claim4_amended_init_no_validation (dt : String) (ev mi : ℤ) :
    (mkEnergyEntropy dt ev mi = .error .typeErr
      ↔ (getDataType dt = none ∧ (1 < ev ∨ 1 ≤ mi)))
    ∧ ((mkEnergyEntropy dt ev mi).isOk = true
      ↔ ¬(getDataType dt = none ∧ (1 < ev ∨ 1 ≤ mi))) := by
  unfold mkEnergyEntropy
  cases h : getDataType dt with
  | none =>
    by_cases hc : 1 < ev ∨ 1 ≤ mi <;> simp [hc, Except.isOk, Except.toBool]
  | some a => simp [Except.isOk, Except.toBool]

/-- Claim C4 counterexample: the configuration `("dna", 0, 0)` has
`energy_values < 1` and `mutual_information_energy < 1`, yet construction
succeeds instead of raising `ConfigurationError`; likewise `("dna", 2, 5)`
has `mutual_information_energy` exceeding the alphabet size 4 and also
constructs successfully. -/
theorem claim4_invalid_config_accepted :
    (mkEnergyEntropy "dna" 0 0).isOk = true
    ∧ (mkEnergyEntropy "dna" 2 5).isOk = true := by
  exact ⟨by decide, by decide⟩

/-! ### Claim C3 -/

/-- Claim C3 (corrected).  `AANaturalVector.seq2vector` does reject every
sequence containing a symbol outside its alphabet, reporting the set of
offending symbols before any numeric work; but `EnergyEntropy_1.seq2vector`
performs no such validation: a sequence containing an out-of-alphabet
symbol can be encoded without any error (witnessed by `"XA"` on a DNA
encoder). -/
theorem claim3_amended_validation :
    (∀ seq : List Char, (∃ c ∈ seq, anvInvalidChar c = true) →
      anvSeq2vector seq =
        .error (.invalidChars (seq.filter (fun c => anvInvalidChar c)).toFinset))
    ∧ (∃ E, mkEnergyEntropy "dna" 2 2 = .ok E
        ∧ E.alphabet = some ['A','C','G','T']
        ∧ ('X' ∈ (['X','A'] : List Char) ∧ 'X' ∉ (['A','C','G','T'] : List Char))
        ∧ (eevSeq2vector E ['X','A']).isOk = true) := by
  constructor
  · rintro seq ⟨c, hc, hinv⟩
    have hne : ¬seq.length = 0 := by
      intro h
      rw [List.length_eq_zero] at h
      subst h
      exact absurd hc (List.not_mem_nil c)
    have hf : ¬(seq.filter (fun c => anvInvalidChar c)) = [] := by
      intro h
      have hmem : c ∈ seq.filter (fun c => anvInvalidChar c) :=
        List.mem_filter.mpr ⟨hc, hinv⟩
      rw [h] at hmem
      exact absurd hmem (List.not_mem_nil c)
    simp [anvSeq2vector, hne, hf]
  · exact ⟨e22, rfl, rfl, ⟨by decide, by decide⟩, by decide⟩

/-- Claim C3 witness: the protein sequence `"BA"` contains the invalid
symbol `'B'`, and the Natural-Vector encoder rejects it with the offending
set. -/
theorem claim3_amended_validation_witness :
    (∃ c ∈ (['B','A'] : List Char), anvInvalidChar c = true)
    ∧ anvSeq2vector ['B','A'] =
        .error (.invalidChars
          ((['B','A'] : List Char).filter (fun c => anvInvalidChar c)).toFinset) :=
  ⟨by decide, claim3_amended_validation.1 ['B','A'] (by decide)⟩

/-- Claim C3 counterexample: the sequence `"XA"` contains `'X'`, which is
outside the DNA alphabet, yet `EnergyEntropy_1.seq2vector` returns a
vector instead of raising an error. -/
theorem claim3_eev_accepts_invalid_symbol :
    mkEnergyEntropy "dna" 2 2 = .ok e22
    ∧ e22.alphabet = some ['A','C','G','T']
    ∧ 'X' ∉ (['A','C','G','T'] : List Char)
    ∧ (eevSeq2vector e22 ['X','A']).isOk = true :=
  ⟨rfl, rfl, by decide, by decide⟩

/-! ### Claim C8 -/

/-- Claim C8 (confirmed).  A symbol index with occurrence count `0` gets
`kesai = 0`, `D = 0`, and every covariance entry of a pair involving it is
`0` (the guards `n[i] > 0` / `n[j] > 0` skip those computations). -/
theorem claim8_zero_count_zeros (seq : List Char) (i : ℕ)
    (h : anvCount seq i = 0) :
    anvKesai seq i = 0 ∧ anvD seq i = 0
    ∧ ∀ j : ℕ, anvCov seq i j = 0 ∧ anvCov seq j i = 0 := by
  refine ⟨?_, ?_, fun j => ⟨?_, ?_⟩⟩ <;> simp [anvKesai, anvD, anvCov, h]

/-- Claim C8 witness: in the sequence `"A"` the amino acid `'R'`
(index 1) does not occur. -/
theorem claim8_zero_count_zeros_witness :
    anvCount ['A'] 1 = 0
    ∧ (anvKesai ['A'] 1 = 0 ∧ anvD ['A'] 1 = 0
      ∧ ∀ j : ℕ, anvCov ['A'] 1 j = 0 ∧ anvCov ['A'] j 1 = 0) :=
  ⟨by decide, claim8_zero_count_zeros ['A'] 1 (by decide)⟩

/-! ### Claim C1 -/

/-- Claim C1 (amended).  For a fixed `EnergyEntropy_1` instance, two encoded
vectors have the same length whenever the two sequence lengths sit on the
same side of `r = mutual_information_energy` (both reach `r` or both do
not); the `E1`/`E2`/`E3` sections have configuration-determined length, but
the `E4` section is emitted only when `seq_len >= r`. -/
theorem claim1_amended_length_invariant (E : EnergyEntropy) (s1 s2 : List Char)
    (v1 v2 : List ℝ)
    (h1 : eevSeq2vector E s1 = .ok v1) (h2 : eevSeq2vector E s2 = .ok v2)
    (hr : E.mutual_information_energy ≤ (s1.length : ℤ)
          ↔ E.mutual_information_energy ≤ (s2.length : ℤ)) :
    v1.length = v2.length := by
  rw [eevSeq2vector_ok E s1 v1 h1, eevSeq2vector_ok E s2 v2 h2]
  simp only [List.length_append, eevE1_length, eevE2_length, eevE3_length,
    eevE4_length, hr]

/-- Claim C1 witness: on the DNA encoder with `energy_values = 2`,
`mutual_information_energy = 2`, the sequences `"AC"` and `"ACGT"` (both of
length at least `r = 2`) receive vectors of equal length. -/
theorem claim1_amended_length_invariant_witness :
    eevSeq2vector e22 ['A','C'] =
      .ok (eevE1 e22 ['A','C'] ++ eevE2 e22 ['A','C']
        ++ eevE3 e22 ['A','C'] ++ eevE4 e22 ['A','C'])
    ∧ eevSeq2vector e22 ['A','C','G','T'] =
      .ok (eevE1 e22 ['A','C','G','T'] ++ eevE2 e22 ['A','C','G','T']
        ++ eevE3 e22 ['A','C','G','T'] ++ eevE4 e22 ['A','C','G','T'])
    ∧ (e22.mutual_information_energy ≤ (([ 'A','C'] : List Char).length : ℤ)
        ↔ e22.mutual_information_energy ≤ ((['A','C','G','T'] : List Char).length : ℤ))
    ∧ (eevE1 e22 ['A','C'] ++ eevE2 e22 ['A','C']
        ++ eevE3 e22 ['A','C'] ++ eevE4 e22 ['A','C']).length =
      (eevE1 e22 ['A','C','G','T'] ++ eevE2 e22 ['A','C','G','T']
        ++ eevE3 e22 ['A','C','G','T'] ++ eevE4 e22 ['A','C','G','T']).length :=
  ⟨rfl, rfl, by decide,
    claim1_amended_length_invariant e22 ['A','C'] ['A','C','G','T'] _ _ rfl rfl
      (by decide)⟩

/-- Claim C1 counterexample: on `EnergyEntropy_1("dna", 1, 3)` the accepted
sequences `"AC"` (length 2) and `"ACG"` (length 3) receive vectors of
lengths 0 and 4 respectively — the output length depends on the sequence
length, not on the configuration alone. -/
theorem claim1_length_depends_on_sequence :
    mkEnergyEntropy "dna" 1 3 = .ok e13
    ∧ eevSeq2vector e13 ['A','C'] = .ok []
    ∧ (∃ v : List ℝ, eevSeq2vector e13 ['A','C','G'] = .ok v ∧ v.length = 4) := by
  refine ⟨rfl, rfl, ⟨_, rfl, ?_⟩⟩
  have h1 : eevE1 e13 ['A','C','G'] = [] := by
    rw [eevE1, if_neg (by decide)]
  have h2 : eevE2 e13 ['A','C','G'] = [] := by
    rw [eevE2, if_neg (by decide)]
  have h3 : eevE3 e13 ['A','C','G'] = [] := by
    rw [eevE3, if_neg (by decide)]
  have h4 : (eevE4 e13 ['A','C','G']).length = 4 := by
    rw [eevE4_length, if_pos (by decide)]
    rfl
  simp [h1, h2, h3, h4]

/-! ### Counting infrastructure for the Natural Vector encoder -/

theorem validChar_mem (c : Char) (h : anvInvalidChar c = false) : c ∈ aaList := by
  by_contra hmem
  have : aaMapping c = -1 := by
    unfold aaMapping
    rw [if_neg hmem]
  unfold anvInvalidChar at h
  rw [this] at h
  simp at h

theorem anvCount_eq_countP (seq : List Char) (i : ℕ) :
    anvCount seq i = seq.countP (fun c => aaMapping c == (i : ℤ)) := by
  unfold anvCount occPositions
  rw [List.length_map, ← List.countP_eq_length_filter]
  conv_rhs => rw [← List.enum_map_snd seq]
  rw [List.countP_map]
  rfl

theorem list_sum_map_add {α : Type} (l : List α) (f g : α → ℕ) :
    (l.map (fun x => f x + g x)).sum = (l.map f).sum + (l.map g).sum := by
  induction l with
  | nil => simp
  | cons a t ih => simp [ih]; omega

theorem range_indicator_sum (n m : ℕ) (h : m < n) :
    ((List.range n).map (fun i => if m = i then (1 : ℕ) else 0)).sum = 1 := by
  induction n with
  | zero => omega
  | succ n ih =>
    rw [List.range_succ, List.map_append, List.sum_append]
    rcases Nat.lt_or_ge m n with hm | hm
    · rw [ih hm]
      simp
      omega
    · have hmn : m = n := by omega
      subst hmn
      have hz : ((List.range m).map (fun i => if m = i then (1 : ℕ) else 0)).sum = 0 := by
        apply List.sum_eq_zero
        intro x hx
        rcases List.mem_map.mp hx with ⟨i, hi, hxi⟩
        have : i < m := List.mem_range.mp hi
        rw [← hxi, if_neg (by omega)]
      rw [hz]
      simp

theorem counts_sum_eq_length (seq : List Char)
    (hv : ∀ c ∈ seq, anvInvalidChar c = false) :
    ((List.range 20).map (fun i => anvCount seq i)).sum = seq.length := by
  have hrw : ∀ i : ℕ, anvCount seq i = seq.countP (fun c => aaMapping c == (i : ℤ)) :=
    anvCount_eq_countP seq
  simp only [hrw]
  induction seq with
  | nil => simp
  | cons c t ih =>
    have hc : anvInvalidChar c = false := hv c (List.mem_cons_self c t)
    have hmem : c ∈ aaList := validChar_mem c hc
    have hmap : aaMapping c = (aaList.indexOf c : ℤ) := by
      unfold aaMapping
      rw [if_pos hmem]
    have hlt : aaList.indexOf c < 20 := by
      have := List.indexOf_lt_length.mpr hmem
      simpa using this
    simp only [List.countP_cons]
    rw [list_sum_map_add]
    rw [ih (fun x hx => hv x (List.mem_cons_of_mem c hx)) (anvCount_eq_countP t)]
    have hone : ((List.range 20).map
        (fun i : ℕ => if (aaMapping c == (i : ℤ)) = true then (1 : ℕ) else 0)).sum = 1 := by
      have heq : ∀ i ∈ List.range 20,
          (if (aaMapping c == (i : ℤ)) = true then (1 : ℕ) else 0)
            = (if aaList.indexOf c = i then (1 : ℕ) else 0) := by
        intro i _
        by_cases hi : aaList.indexOf c = i
        · rw [if_pos hi, if_pos]
          rw [hmap, hi]
          simp
        · rw [if_neg hi, if_neg]
          rw [hmap]
          simp
          omega
      rw [List.map_congr_left heq]
      exact range_indicator_sum 20 (aaList.indexOf c) hlt
    rw [hone]
    simp [Nat.add_comm]

theorem anvVector_take20 (seq : List Char) :
    (anvVector seq).take 20 = (List.range 20).map (fun i => (anvCount seq i : ℚ)) := by
  unfold anvVector
  rw [List.append_assoc, List.append_assoc]
  apply List.take_left'
  simp

theorem anvVector_take20_sum (seq : List Char)
    (hv : ∀ c ∈ seq, anvInvalidChar c = false) :
    ((anvVector seq).take 20).sum = (seq.length : ℚ) := by
  rw [anvVector_take20]
  rw [← counts_sum_eq_length seq hv]
  rw [Nat.cast_list_sum, List.map_map]
  rfl

theorem anv_accepts (seq : List Char)
    (hv : ∀ c ∈ seq, anvInvalidChar c = false) (hne : seq ≠ []) :
    anvSeq2vector seq = .ok [anvVector seq] := by
  have hlen : ¬seq.length = 0 := by
    intro h
    exact hne (List.length_eq_zero.mp h)
  have hfil : ¬(seq.filter (fun c => anvInvalidChar c)) ≠ [] := by
    simp only [ne_eq, not_not]
    exact List.filter_eq_nil_iff.mpr (fun c hc => by simp [hv c hc])
  have hnz : allZeroRow (anvVector seq) = false := by
    by_contra hall
    have hall' : allZeroRow (anvVector seq) = true := by
      revert hall
      cases allZeroRow (anvVector seq) <;> simp
    have hzero : ∀ x ∈ anvVector seq, x = 0 := by
      intro x hx
      have := List.all_eq_true.mp hall' x hx
      simpa using this
    have hsum : ((anvVector seq).take 20).sum = 0 :=
      List.sum_eq_zero (fun x hx => hzero x (List.take_subset 20 _ hx))
    rw [anvVector_take20_sum seq hv] at hsum
    have : seq.length = 0 := by exact_mod_cast hsum
    exact hlen this
  unfold anvSeq2vector
  rw [if_neg hlen, if_neg hfil]
  simp [hnz]

theorem anvSeq2vector_ok_inv (seq : List Char) (rows : List (List ℚ))
    (h : anvSeq2vector seq = .ok rows) :
    (∀ c ∈ seq, anvInvalidChar c = false)
    ∧ rows = ([anvVector seq]).filter (fun row => !(allZeroRow row)) := by
  unfold anvSeq2vector at h
  split at h
  · exact absurd h (by simp)
  · split at h
    · exact absurd h (by simp)
    · rename_i hfil
      constructor
      · intro c hc
        rw [ne_eq, not_not] at hfil
        have := List.filter_eq_nil_iff.mp hfil c hc
        simpa using this
      · exact (Except.ok.injEq _ _ ▸ h).symm

/-! ### Claim C9 -/

/-- Claim C9 (confirmed).  For every sequence accepted by
`AANaturalVector.seq2vector`, the sum of the 20 count entries (positions
0..19 of the output row) equals the sequence length. -/
theorem claim9_counts_sum (seq : List Char) (v : List ℚ)
    (h : anvSeq2vector seq = .ok [v]) :
    (v.take 20).sum = (seq.length : ℚ) := by
  rcases anvSeq2vector_ok_inv seq [v] h with ⟨hv, hrow⟩
  have hvv : v = anvVector seq := by
    rcases List.filter_eq_cons_iff.mp hrow.symm with ⟨l₁, l₂, hsplit, -, -, -⟩
    have hmem : v ∈ [anvVector seq] := by
      rw [hsplit]
      exact List.mem_append.mpr (Or.inr (List.mem_cons_self v l₂))
    simpa using hmem
  rw [hvv]
  exact anvVector_take20_sum seq hv

/-- Claim C9 witness: the sequence `"ACD"` is accepted and its 20 count
entries sum to 3. -/
theorem claim9_counts_sum_witness :
    anvSeq2vector ['A','C','D'] = .ok [anvVector ['A','C','D']]
    ∧ ((anvVector ['A','C','D']).take 20).sum = ((['A','C','D'] : List Char).length : ℚ) :=
  ⟨anv_accepts ['A','C','D'] (by decide) (by decide),
    claim9_counts_sum ['A','C','D'] (anvVector ['A','C','D'])
      (anv_accepts ['A','C','D'] (by decide) (by decide))⟩

/-! ### Claim C6 -/

set_option maxRecDepth 8000 in
/-- Claim C6 (confirmed).  For every valid non-empty sequence the encoder
returns exactly one row of 250 values in the fixed order
`[counts, kesai, D, covariance lower triangle]`; the covariance section
consists of exactly the 190 strict-lower-triangle entries
(`j < i < 20`), in row-major order. -/
theorem claim6_vector_shape (seq : List Char)
    (hv : ∀ c ∈ seq, anvInvalidChar c = false) (hne : seq ≠ []) :
    anvSeq2vector seq = .ok [anvVector seq]
    ∧ (anvVector seq).length = 250
    ∧ (anvVector seq).take 20 = (List.range 20).map (fun i => (anvCount seq i : ℚ))
    ∧ (anvVector seq).drop 60 = covPairs.map (fun pr => anvCov seq pr.1 pr.2)
    ∧ covPairs.length = 190
    ∧ (∀ pr ∈ covPairs, pr.2 < pr.1 ∧ pr.1 < 20) := by
  refine ⟨anv_accepts seq hv hne, ?_, anvVector_take20 seq, ?_, ?_, ?_⟩
  · unfold anvVector
    have hcp : covPairs.length = 190 := by decide
    simp [hcp]
  · unfold anvVector
    have hassoc :
        ((List.range 20).map (fun i => (anvCount seq i : ℚ)))
          ++ ((List.range 20).map (fun i => anvKesai seq i))
          ++ ((List.range 20).map (fun i => anvD seq i))
          ++ (covPairs.map (fun pr => anvCov seq pr.1 pr.2))
        = (((List.range 20).map (fun i => (anvCount seq i : ℚ)))
            ++ (((List.range 20).map (fun i => anvKesai seq i))
              ++ ((List.range 20).map (fun i => anvD seq i))))
          ++ (covPairs.map (fun pr => anvCov seq pr.1 pr.2)) := by
      simp [List.append_assoc]
    rw [hassoc]
    apply List.drop_left'
    simp
  · decide
  · decide

/-- Claim C6 witness: shape facts evaluated on the sequence `"AC"`. -/
theorem claim6_vector_shape_witness :
    anvSeq2vector ['A','C'] = .ok [anvVector ['A','C']]
    ∧ (anvVector ['A','C']).length = 250
    ∧ (anvVector ['A','C']).take 20 =
        (List.range 20).map (fun i => (anvCount ['A','C'] i : ℚ))
    ∧ (anvVector ['A','C']).drop 60 =
        covPairs.map (fun pr => anvCov ['A','C'] pr.1 pr.2)
    ∧ covPairs.length = 190
    ∧ (∀ pr ∈ covPairs, pr.2 < pr.1 ∧ pr.1 < 20) :=
  claim6_vector_shape ['A','C'] (by decide) (by decide)

/-! ### Claim C7 : conditional-entropy accumulation -/

theorem mem_firstDedup {α : Type} [DecidableEq α] (l : List α) (x : α) :
    x ∈ firstDedup l ↔ x ∈ l := by
  match l with
  | [] => simp [firstDedup]
  | a :: as =>
    rw [firstDedup]
    have ih := mem_firstDedup (as.filter (fun y => y ≠ a)) x
    constructor
    · intro h
      rcases List.mem_cons.mp h with h | h
      · exact h ▸ List.mem_cons_self a as
      · have hmem := ih.mp h
        exact List.mem_cons_of_mem a (List.mem_filter.mp hmem).1
    · intro h
      rcases List.mem_cons.mp h with h | h
      · exact h ▸ List.mem_cons_self a _
      · by_cases hxa : x = a
        · exact hxa ▸ List.mem_cons_self a _
        · exact List.mem_cons_of_mem a
            (ih.mpr (List.mem_filter.mpr ⟨h, by simp [hxa]⟩))
termination_by l.length
decreasing_by
  exact Nat.lt_succ_of_le (as.length_filter_le _)

theorem nodup_firstDedup {α : Type} [DecidableEq α] (l : List α) :
    (firstDedup l).Nodup := by
  match l with
  | [] => simp [firstDedup]
  | a :: as =>
    rw [firstDedup]
    refine List.nodup_cons.mpr ⟨?_, nodup_firstDedup _⟩
    intro hmem
    have h := (mem_firstDedup _ a).mp hmem
    rw [List.mem_filter] at h
    simp at h
termination_by l.length
decreasing_by
  exact Nat.lt_succ_of_le (as.length_filter_le _)

theorem toFinset_firstDedup {α : Type} [DecidableEq α] (l : List α) :
    (firstDedup l).toFinset = l.toFinset := by
  ext x
  simp [mem_firstDedup]

theorem hSecond_foldl_eval (seq : List Char) (l : List (Char × Char))
    (hl : ∀ d ∈ l, (dimerList seq).count d ≠ 0) (m : Char → ℝ) (b : Char) :
    (l.foldl
      (fun m d =>
        if (dimerList seq).count d = 0 then m
        else fun c => if c = d.2 then m d.2 + hSecondTerm seq d else m c) m) b
    = m b + ((l.filter (fun d => d.2 == b)).map (hSecondTerm seq)).sum := by
  induction l generalizing m with
  | nil => simp
  | cons d t ih =>
    rw [List.foldl_cons, if_neg (hl d (List.mem_cons_self d t))]
    rw [ih (fun x hx => hl x (List.mem_cons_of_mem d hx))]
    by_cases hb : d.2 = b
    · rw [List.filter_cons_of_pos (by simp [hb])]
      rw [List.map_cons, List.sum_cons]
      simp [hb]
      ring
    · rw [List.filter_cons_of_neg (by simp [hb])]
      have : (if b = d.2 then m d.2 + hSecondTerm seq d else m b) = m b := by
        rw [if_neg (fun h => hb h.symm)]
      rw [this]

/-- Claim C7 (confirmed).  For every sequence over the configured alphabet
of length at least 2, `H_second(b)` equals the sum, over exactly the
distinct observed adjacent pairs whose second letter is `b`, of
`-(cnt/(N-1)) * log2(cnt/(N-1) + 1e-10)`; unobserved (zero-count) pairs
contribute nothing, and the `1e-10` guard sits only inside the logarithm,
never on the probability factor. -/
theorem claim7_hsecond (al : List Char) (seq : List Char) (b : Char)
    (hval : ∀ c ∈ seq, c ∈ al) (hb : b ∈ al) (hN : 2 ≤ seq.length) :
    hSecond seq b
      = ∑ d ∈ ((dimerList seq).toFinset.filter (fun d => d.2 = b)),
          (-(((dimerList seq).count d : ℝ) / ((seq.length - 1 : ℕ) : ℝ))
            * Real.logb 2 (((dimerList seq).count d : ℝ) / ((seq.length - 1 : ℕ) : ℝ)
                + 1 / 10 ^ 10)) := by
  have htp : 0 < seq.length - 1 := by omega
  unfold hSecond
  rw [if_pos htp]
  rw [hSecond_foldl_eval seq (firstDedup (dimerList seq))
    (fun d hd => by
      have hmem : d ∈ dimerList seq := (mem_firstDedup _ d).mp hd
      exact (List.count_pos_iff.mpr hmem).ne')
    (fun _ => 0) b]
  rw [zero_add]
  have hnd : ((firstDedup (dimerList seq)).filter (fun d => d.2 == b)).Nodup :=
    (nodup_firstDedup _).filter _
  rw [← List.sum_toFinset _ hnd]
  have hset : ((firstDedup (dimerList seq)).filter (fun d => d.2 == b)).toFinset
      = (dimerList seq).toFinset.filter (fun d => d.2 = b) := by
    ext x
    simp [List.mem_filter, mem_firstDedup]
  rw [hset]
  rfl

/-- Claim C7 witness: the accumulated conditional-entropy value evaluated
on the DNA-alphabet sequence `"AC"` at the letter `'C'`. -/
theorem claim7_hsecond_witness :
    (∀ c ∈ (['A','C'] : List Char), c ∈ (['A','C','G','T'] : List Char))
    ∧ 'C' ∈ (['A','C','G','T'] : List Char)
    ∧ 2 ≤ (['A','C'] : List Char).length
    ∧ hSecond ['A','C'] 'C'
      = ∑ d ∈ ((dimerList ['A','C']).toFinset.filter (fun d => d.2 = 'C')),
          (-(((dimerList ['A','C']).count d : ℝ)
              / (((['A','C'] : List Char).length - 1 : ℕ) : ℝ))
            * Real.logb 2 (((dimerList ['A','C']).count d : ℝ)
                / (((['A','C'] : List Char).length - 1 : ℕ) : ℝ) + 1 / 10 ^ 10)) :=
  ⟨by decide, by decide, by decide,
    claim7_hsecond ['A','C','G','T'] ['A','C'] 'C' (by decide) (by decide) (by decide)⟩

/-! ### Claim C10 : positivity of p_comb -/

/-- Claim C10 (confirmed).  Whenever the observed sorted-window count of an
r-subset is positive, every letter of that subset occurs in the scanned
window (sorting permutes the window) and hence in the sequence, so every
marginal probability — and therefore their product `p_comb` — is strictly
positive; the division in the `E4` formula is never a division by zero. -/
theorem claim10_pcomb_pos (E : EnergyEntropy) (seq : List Char)
    (comb : List Char) (h : 0 < miCountsOf E seq (sortChars comb)) :
    0 < pComb seq comb := by
  unfold miCountsOf at h
  rw [List.countP_pos_iff] at h
  rcases h with ⟨w, hw, hpred⟩
  rw [decide_eq_true_eq] at hpred
  rcases hpred with ⟨hsort, -⟩
  have hwsub : ∀ x ∈ w, x ∈ seq := by
    unfold miWindows at hw
    split at hw
    · unfold windowList at hw
      rcases List.mem_map.mp hw with ⟨i, -, hwi⟩
      intro x hx
      rw [← hwi] at hx
      exact List.drop_subset i seq (List.take_subset _ _ hx)
    · exact absurd hw (List.not_mem_nil w)
  unfold pComb
  apply List.prod_pos
  intro x hx
  rcases List.mem_map.mp hx with ⟨c, hc, rfl⟩
  have hcw : c ∈ w := by
    have h1 : c ∈ sortChars comb :=
      ((List.perm_insertionSort (fun a b => a ≤ b) comb).mem_iff).mpr hc
    rw [← hsort] at h1
    exact ((List.perm_insertionSort (fun a b => a ≤ b) w).mem_iff).mp h1
  have hcs : c ∈ seq := hwsub c hcw
  unfold pX numberX
  apply div_pos
  · exact_mod_cast List.count_pos_iff.mpr hcs
  · exact_mod_cast List.length_pos.mpr (List.ne_nil_of_mem hcs)

/-- Claim C10 witness: on the DNA encoder with `r = 2` and the sequence
`"AC"`, the subset `{A, C}` has observed window count 1 and a positive
`p_comb`. -/
theorem claim10_pcomb_pos_witness :
    0 < miCountsOf e22 ['A','C'] (sortChars ['A','C'])
    ∧ 0 < pComb ['A','C'] ['A','C'] :=
  ⟨by decide, claim10_pcomb_pos e22 ['A','C'] ['A','C'] (by decide)⟩

/-! ### Claim C2 : the E4 mutual-information entries -/

theorem combos_sublist : ∀ (k : ℕ) (l : List Char), ∀ c ∈ combos k l, c.Sublist l
  | 0, l, c, hc => by
    simp only [combos, List.mem_singleton] at hc
    subst hc
    exact List.nil_sublist l
  | k + 1, [], c, hc => by simp [combos] at hc
  | k + 1, a :: cs, c, hc => by
    rw [combos] at hc
    rcases List.mem_append.mp hc with h | h
    · rcases List.mem_map.mp h with ⟨t, ht, rfl⟩
      exact List.Sublist.cons₂ a (combos_sublist k cs t ht)
    · exact (combos_sublist (k + 1) cs c h).cons a

theorem combos_length : ∀ (k : ℕ) (l : List Char), ∀ c ∈ combos k l, c.length = k
  | 0, l, c, hc => by
    simp only [combos, List.mem_singleton] at hc
    simp [hc]
  | k + 1, [], c, hc => by simp [combos] at hc
  | k + 1, a :: cs, c, hc => by
    rw [combos] at hc
    rcases List.mem_append.mp hc with h | h
    · rcases List.mem_map.mp h with ⟨t, ht, rfl⟩
      simp [combos_length k cs t ht]
    · exact combos_length (k + 1) cs c h

theorem getDataType_sorted (dt : String) (a : List Char)
    (h : getDataType dt = some a) : a.Pairwise (fun x y => x ≤ y) := by
  unfold getDataType at h
  split_ifs at h <;>
    (rw [Option.some.injEq] at h; subst h; decide)

theorem mk_eq_of_none (dt : String) (ev mi : ℤ) (h : getDataType dt = none) :
    mkEnergyEntropy dt ev mi =
      if 1 < ev ∨ 1 ≤ mi then .error .typeErr
      else .ok ⟨dt, ev, mi, none, [], [], []⟩ := by
  rw [mkEnergyEntropy, h]

theorem mk_eq_of_some (dt : String) (ev mi : ℤ) (a : List Char)
    (h : getDataType dt = some a) :
    mkEnergyEntropy dt ev mi =
      .ok ⟨dt, ev, mi, some a,
        (if 1 < ev then
          (List.range' 1 (ev - 1).toNat).map (fun k => (k, combos k a)) else []),
        (if 1 ≤ mi then combos mi.toNat a else []),
        (if 1 ≤ mi then
          (if 1 ≤ mi then combos mi.toNat a else []).map sortChars else [])⟩ := by
  rw [mkEnergyEntropy, h]

theorem mk_ok_mi (dt : String) (ev mi : ℤ) (E : EnergyEntropy)
    (h : mkEnergyEntropy dt ev mi = .ok E) (hne : E.mi_combinations ≠ []) :
    E.mutual_information_energy = mi
    ∧ 1 ≤ mi
    ∧ ∃ a : List Char, a.Pairwise (fun x y => x ≤ y)
        ∧ E.mi_combinations = combos mi.toNat a
        ∧ E.mi_combinations_set = E.mi_combinations.map sortChars := by
  cases hdt : getDataType dt with
  | none =>
    rw [mk_eq_of_none dt ev mi hdt] at h
    split at h
    · exact absurd h (by simp)
    · rw [Except.ok.injEq] at h
      rw [← h] at hne
      simp at hne
  | some a =>
    rw [mk_eq_of_some dt ev mi a hdt] at h
    rw [Except.ok.injEq] at h
    subst h
    by_cases hmi : 1 ≤ mi
    · exact ⟨rfl, hmi, a, getDataType_sorted dt a hdt,
        by simp [hmi], by simp [hmi]⟩
    · simp [hmi] at hne

theorem windowList_one (seq : List Char) (hne : seq ≠ []) :
    windowList 1 seq = seq.map (fun x => [x]) := by
  induction seq with
  | nil => exact absurd rfl hne
  | cons a t ih =>
    unfold windowList
    have hlen : (a :: t).length - 1 + 1 = t.length + 1 := by simp
    rw [hlen, List.range_succ_eq_map, List.map_cons, List.map_map, List.map_cons]
    congr 1
    cases ht : t with
    | nil => simp
    | cons b u =>
      have ih' := ih (by simp [ht])
      rw [ht] at ih'
      unfold windowList at ih'
      have hlen' : (b :: u).length - 1 + 1 = (b :: u).length := by simp
      rw [hlen'] at ih'
      rw [← ih']
      rfl

theorem count_windows_one (seq : List Char) (c : Char) (hne : seq ≠ []) :
    (windowList 1 seq).countP (fun w => decide (sortChars w = [c]))
      = seq.count c := by
  rw [windowList_one seq hne, List.countP_map]
  rw [List.count]
  apply List.countP_congr
  intro x _
  simp only [Function.comp_apply, decide_eq_true_eq, beq_iff_eq]
  constructor
  · intro h
    have : [x] = [c] := by simpa [sortChars, List.insertionSort] using h
    simpa using this
  · intro h
    subst h
    rfl

/-- Claim C2 (confirmed).  For a constructed encoder and a sequence of
length `N ≥ max(2, r)`, the `E4` feature list equals, entry by entry in
`itertools.combinations` order, the claimed formula: the count of the
`N - r + 1` sliding windows of width `r` whose sorted symbols equal the
subset, fed into `log2((count/N)/p_comb) * (count/N) * count` when the
count is positive and `0` otherwise (for `r = 1` the scan never runs, but
`count/N` then coincides with `p_comb`, so the claimed formula is `0` as
well). -/
theorem claim2_e4_formula (dt : String) (ev mi : ℤ) (E : EnergyEntropy)
    (hE : mkEnergyEntropy dt ev mi = .ok E)
    (seq : List Char) (hN : 2 ≤ seq.length) (hr : mi ≤ (seq.length : ℤ)) :
    eevE4 E seq = E.mi_combinations.map (specE4Entry mi.toNat seq) := by
  by_cases hne : E.mi_combinations = []
  · unfold eevE4
    rw [hne]
    simp
  · rcases mk_ok_mi dt ev mi E hE hne with ⟨hEmi, hmi1, a, hsorted, hmic, hset⟩
    unfold eevE4
    rw [if_pos ⟨hne, by rw [hEmi]; exact hr⟩]
    apply List.map_congr_left
    intro comb hcomb_mem
    have hcomb_sorted : comb.Pairwise (fun x y => x ≤ y) := by
      rw [hmic] at hcomb_mem
      exact hsorted.sublist (combos_sublist mi.toNat a comb hcomb_mem)
    have hsc : sortChars comb = comb := List.Sorted.insertionSort_eq hcomb_sorted
    rw [hsc]
    rcases lt_or_eq_of_le hmi1 with hgt | heq1
    · -- r > 1 : the scanned windows are exactly the sliding windows
      have hwin : miWindows E seq = windowList mi.toNat seq := by
        unfold miWindows
        rw [hEmi]
        rw [if_pos ⟨hgt, hr⟩]
      have hcnt : miCountsOf E seq comb
          = (windowList mi.toNat seq).countP (fun w => decide (sortChars w = comb)) := by
        unfold miCountsOf
        rw [hwin]
        apply List.countP_congr
        intro w _
        simp only [decide_eq_true_eq]
        constructor
        · rintro ⟨h1, -⟩
          exact h1
        · intro h1
          refine ⟨h1, ?_⟩
          rw [h1, hset]
          exact List.mem_map.mpr ⟨comb, hcomb_mem, hsc⟩
      rw [hcnt]
      unfold specE4Entry
      rfl
    · -- r = 1 : the window scan is skipped, and the claimed formula is 0
      have hmito : mi.toNat = 1 := by rw [← heq1]; rfl
      have hwin0 : miWindows E seq = [] := by
        unfold miWindows
        rw [hEmi, ← heq1]
        simp
      have hcnt0 : miCountsOf E seq comb = 0 := by
        unfold miCountsOf
        rw [hwin0]
        rfl
      rw [hcnt0]
      rw [if_neg (by omega)]
      obtain ⟨c, rfl⟩ : ∃ c, comb = [c] := by
        rw [hmic] at hcomb_mem
        have hl := combos_length mi.toNat a comb hcomb_mem
        rw [hmito] at hl
        exact List.length_eq_one.mp hl
      have hseqne : seq ≠ [] := by
        intro h0
        rw [h0] at hN
        simp at hN
      unfold specE4Entry
      rw [hmito, count_windows_one seq c hseqne]
      by_cases hc : 0 < seq.count c
      · rw [if_pos hc]
        have hpc : pComb seq [c] = (seq.count c : ℝ) / (seq.length : ℝ) := by
          unfold pComb pX numberX
          simp
        rw [hpc]
        have hnz : (seq.count c : ℝ) / (seq.length : ℝ) ≠ 0 := by
          apply div_ne_zero
          · exact_mod_cast hc.ne'
          · have : 0 < seq.length := by omega
            exact_mod_cast this.ne'
        rw [div_self hnz, Real.logb_one, zero_mul, zero_mul]
      · rw [if_neg hc]

/-- Claim C2 witness: the DNA encoder with `r = 2` on the sequence
`"ACAC"`. -/
theorem claim2_e4_formula_witness :
    mkEnergyEntropy "dna" 2 2 = .ok e22
    ∧ 2 ≤ (['A','C','A','C'] : List Char).length
    ∧ (2 : ℤ) ≤ (((['A','C','A','C'] : List Char).length : ℕ) : ℤ)
    ∧ eevE4 e22 ['A','C','A','C']
      = e22.mi_combinations.map (specE4Entry (2 : ℤ).toNat ['A','C','A','C']) :=
  ⟨rfl, by decide, by decide,
    claim2_e4_formula "dna" 2 2 e22 rfl ['A','C','A','C'] (by decide) (by decide)⟩

/-! ### Claim C5 : the cumulative rank profile -/

theorem lastD_mem (a : ℕ) (t : List ℕ) : lastD (a :: t) ∈ a :: t := by
  induction t generalizing a with
  | nil => simp [lastD]
  | cons b u ih =>
    rw [show lastD (a :: b :: u) = lastD (b :: u) from rfl]
    exact List.mem_cons_of_mem a (ih b)

theorem le_lastD (a : ℕ) (t : List ℕ) (hpw : (a :: t).Pairwise (· < ·)) :
    ∀ x ∈ a :: t, x ≤ lastD (a :: t) := by
  induction t generalizing a with
  | nil =>
    intro x hx
    rw [List.mem_singleton.mp hx]
    simp [lastD]
  | cons b u ih =>
    intro x hx
    rw [show lastD (a :: b :: u) = lastD (b :: u) from rfl]
    rcases List.mem_cons.mp hx with hxa | hxt
    · subst hxa
      have hab : x < b := (List.pairwise_cons.mp hpw).1 b (List.mem_cons_self b u)
      have hble := ih b (List.Pairwise.of_cons hpw) b (List.mem_cons_self b u)
      omega
    · exact ih b (List.Pairwise.of_cons hpw) x hxt

theorem innerFold_eval (rest : List ℕ) :
    ∀ (a j : ℕ) (f : ℕ → ℚ) (p : ℕ),
      (a :: rest).Pairwise (· < ·) →
      ((innerSlices j (a :: rest)).foldl
          (fun g x => sliceSet g x.2.1 x.2.2 (x.1 : ℚ)) f) p
        = if p < a then f p
          else if lastD (a :: rest) ≤ p then f p
          else ((j + rest.countP (fun q => decide (q ≤ p)) : ℕ) : ℚ) := by
  induction rest with
  | nil =>
    intro a j f p _
    rw [show innerSlices j [a] = [] from rfl, List.foldl_nil]
    by_cases h1 : p < a
    · rw [if_pos h1]
    · rw [if_neg h1, if_pos (show lastD [a] ≤ p by simp [lastD]; omega)]
  | cons b u ih =>
    intro a j f p hpw
    rw [show innerSlices j (a :: b :: u) = (j, a, b) :: innerSlices (j + 1) (b :: u)
      from rfl]
    rw [List.foldl_cons]
    have hpw' : (b :: u).Pairwise (· < ·) := List.Pairwise.of_cons hpw
    rw [ih b (j + 1) (sliceSet f a b (j : ℚ)) p hpw']
    have hab : a < b := (List.pairwise_cons.mp hpw).1 b (List.mem_cons_self b u)
    have hble : b ≤ lastD (b :: u) := le_lastD b u hpw' b (List.mem_cons_self b u)
    rw [show lastD (a :: b :: u) = lastD (b :: u) from rfl]
    by_cases h1 : p < a
    · have hpb : p < b := by omega
      have h2 : ¬lastD (b :: u) ≤ p := by omega
      simp only [sliceSet, if_pos h1, if_pos hpb]
      rw [if_neg (by omega)]
    · by_cases h2 : lastD (b :: u) ≤ p
      · have hpb : ¬p < b := by omega
        simp only [sliceSet, if_neg h1, if_pos h2, if_neg hpb]
        rw [if_neg (by omega)]
      · by_cases hpb : p < b
        · simp only [sliceSet, if_neg h1, if_neg h2, if_pos hpb]
          rw [if_pos ⟨by omega, hpb⟩]
          have hcnt : (b :: u).countP (fun q => decide (q ≤ p)) = 0 := by
            rw [List.countP_eq_zero]
            intro x hx
            rcases List.mem_cons.mp hx with hxb | hxu
            · simp [hxb]
              omega
            · have hbx : b < x := (List.pairwise_cons.mp hpw').1 x hxu
              simp
              omega
          rw [hcnt]
          simp
        · simp only [sliceSet, if_neg h1, if_neg h2, if_neg hpb]
          have hcnt : (b :: u).countP (fun q => decide (q ≤ p))
              = u.countP (fun q => decide (q ≤ p)) + 1 := by
            rw [List.countP_cons]
            rw [if_pos (by simp; omega)]
          rw [hcnt]
          congr 1
          omega

theorem miuRow_cons (p0 : ℕ) (rest : List ℕ) (N : ℕ) :
    miuRow (p0 :: rest) N
      = sliceSet
          ((innerSlices 1 (p0 :: rest)).foldl
            (fun f x => sliceSet f x.2.1 x.2.2 (x.1 : ℚ))
            (if 0 < p0 then sliceSet (miuInit (p0 :: rest)) 0 p0 0
              else miuInit (p0 :: rest)))
          (lastD (p0 :: rest)) N ((p0 :: rest).length : ℚ) := rfl

theorem miuRow_eval (occ : List ℕ) (N : ℕ) (hpw : occ.Pairwise (· < ·))
    (hb : ∀ x ∈ occ, x < N) (p : ℕ) (hp : p < N) :
    miuRow occ N p = (occ.countP (fun q => decide (q ≤ p)) : ℚ) := by
  match occ with
  | [] => simp [miuRow, miuInit]
  | p0 :: rest =>
    rw [miuRow_cons]
    by_cases hlast : lastD (p0 :: rest) ≤ p
    · simp only [sliceSet, if_pos (And.intro hlast hp)]
      have hcnt : (p0 :: rest).countP (fun q => decide (q ≤ p))
          = (p0 :: rest).length := by
        rw [List.countP_eq_length]
        intro x hx
        have := le_lastD p0 rest hpw x hx
        simp
        omega
      rw [hcnt]
    · simp only [sliceSet]
      rw [if_neg (fun hand => hlast hand.1)]
      rw [innerFold_eval rest p0 1
        (if 0 < p0 then sliceSet (miuInit (p0 :: rest)) 0 p0 0
          else miuInit (p0 :: rest)) p hpw]
      by_cases h1 : p < p0
      · rw [if_pos h1]
        have hp0 : 0 < p0 := by omega
        rw [if_pos hp0]
        simp only [sliceSet]
        rw [if_pos (And.intro (Nat.zero_le p) h1)]
        have hcnt : (p0 :: rest).countP (fun q => decide (q ≤ p)) = 0 := by
          rw [List.countP_eq_zero]
          intro x hx
          rcases List.mem_cons.mp hx with hx0 | hxr
          · simp [hx0]
            omega
          · have : p0 < x := (List.pairwise_cons.mp hpw).1 x hxr
            simp
            omega
        rw [hcnt]
        simp
      · rw [if_neg h1, if_neg hlast]
        have hcnt : (p0 :: rest).countP (fun q => decide (q ≤ p))
            = rest.countP (fun q => decide (q ≤ p)) + 1 := by
          rw [List.countP_cons]
          rw [if_pos (by simp; omega)]
        rw [hcnt]
        congr 1
        omega

theorem occPositions_sublist (seq : List Char) (i : ℕ) :
    (occPositions seq i).Sublist (List.range seq.length) := by
  unfold occPositions
  have h1 : (seq.enum.filter (fun pc => aaMapping pc.2 == (i : ℤ))).Sublist seq.enum :=
    List.filter_sublist _
  have h2 := h1.map Prod.fst
  rw [List.enum_map_fst] at h2
  exact h2

theorem occPositions_pairwise (seq : List Char) (i : ℕ) :
    (occPositions seq i).Pairwise (· < ·) :=
  (List.pairwise_lt_range _).sublist (occPositions_sublist seq i)

theorem occPositions_lt (seq : List Char) (i : ℕ) :
    ∀ x ∈ occPositions seq i, x < seq.length := fun x hx =>
  List.mem_range.mp ((occPositions_sublist seq i).subset hx)

/-- Claim C5 (confirmed).  For every position `p` (1-based) of the
sequence, the cumulative rank stored for symbol index `i` equals the
number of occurrences of that symbol at or before `p` — `0` before the
first occurrence, `j` between the `j`-th and `(j+1)`-th, `n_i` from the
last occurrence on — and a symbol with no occurrences keeps an all-zero
profile. -/
theorem claim5_cumulative_rank (seq : List Char) (i : ℕ) (p : ℕ)
    (hp1 : 1 ≤ p) (hpN : p ≤ seq.length) :
    anvMiu seq i (p - 1)
      = ((occPositions seq i).countP (fun q => decide (q + 1 ≤ p)) : ℚ)
    ∧ (anvCount seq i = 0 → ∀ q : ℕ, anvMiu seq i q = 0) := by
  constructor
  · unfold anvMiu
    rw [miuRow_eval (occPositions seq i) seq.length
      (occPositions_pairwise seq i) (occPositions_lt seq i) (p - 1) (by omega)]
    congr 1
    apply List.countP_congr
    intro q _
    simp
    omega
  · intro h0 q
    have hocc : occPositions seq i = [] := List.length_eq_zero.mp h0
    unfold anvMiu
    rw [hocc]
    simp [miuRow, miuInit]

/-- Claim C5 witness: the profile of `'A'` (index 0) in the sequence
`"ARA"` evaluated at the 1-based position 2. -/
theorem claim5_cumulative_rank_witness :
    1 ≤ 2 ∧ 2 ≤ (['A','R','A'] : List Char).length
    ∧ (anvMiu ['A','R','A'] 0 (2 - 1)
        = ((occPositions ['A','R','A'] 0).countP (fun q => decide (q + 1 ≤ 2)) : ℚ)
      ∧ (anvCount ['A','R','A'] 0 = 0 → ∀ q : ℕ, anvMiu ['A','R','A'] 0 q = 0)) :=
  ⟨by decide, by decide,
    claim5_cumulative_rank ['A','R','A'] 0 2 (by decide) (by decide)⟩
